import Mathlib

/-!
Verification development for the quantum-classifier repository
(`qcnn_method.py`, `kernel_method.py`, `main.py`).

The Python code is shallowly embedded: angles and observable values are
modelled as rationals, parameter arrays as functions `Nat → ℚ` (the source
treats a too-short parameter array as an unchecked precondition), qubit
counts and indices as naturals, and the gates emitted by the circuit
builders as explicit lists.  `int(np.ceil(k / 2))` on a nonnegative integer
`k` is `(k + 1) / 2` in natural division, and Python's clamping slice
`xs[a : b]` is `(xs.drop a).take (b - a)`.
-/

namespace QCNN

/-- `int(np.ceil(k / 2))` for a natural `k`, as used in `QCNN_Solver.__init__`,
`QCNN_Solver.pool` and the size trajectory of `generate_qcnn_circuit`. -/
def ceilHalf (k : Nat) : Nat := (k + 1) / 2

lemma ceilHalf_lt (n : Nat) (h : 2 ≤ n) : ceilHalf n < n := by
  unfold ceilHalf; omega

lemma ceilHalf_pos (n : Nat) (h : 1 ≤ n) : 1 ≤ ceilHalf n := by
  unfold ceilHalf; omega

lemma ceilHalf_eq_one_iff (n : Nat) : ceilHalf n = 1 ↔ n = 1 ∨ n = 2 := by
  unfold ceilHalf; omega

/-- The accumulation loop of `QCNN_Solver.__init__` (lines 38-42):
`while test_qubits > 1: num_params += 2 * test_qubits;
test_qubits = int(np.ceil(test_qubits / 2))`. -/
def paramLoopSum (n : Nat) : Nat :=
  if h : 1 < n then 2 * n + paramLoopSum (ceilHalf n) else 0
termination_by n
decreasing_by exact ceilHalf_lt n h

/-- `self.num_params` as computed by `QCNN_Solver.__init__` (lines 38-43):
the loop sum minus the final correction `self.num_params -= 2`.  Python uses
unbounded signed integers, so the result is an integer that can be negative. -/
def numParams (n : Nat) : Int := (paramLoopSum n : Int) - 2

/-- Models `np.random.randn(num_params)`: numpy rejects a negative dimension,
so construction of the initial parameter vector only succeeds for a
nonnegative length (the contents are irrelevant here, only the shape). -/
def randnLen (len : Int) : Option Nat :=
  if len < 0 then none else some len.toNat

/-- A gate emitted by the circuit-building functions: a parametrized `qml.RY`
rotation carrying its angle, or a `qml.CNOT` entangling gate. -/
inductive Gate where
  | RY (angle : ℚ) (wire : Nat)
  | CNOT (control target : Nat)
deriving DecidableEq

/-- One iteration of the `for i in range(num_qubits)` loop in the general
branch of `QCNN_Solver.convolution` (lines 83-90): the accumulator carries
the gates emitted so far and the running `i_param`. -/
def convStep (num_qubits : Nat) (params : Nat → ℚ) (acc : List Gate × Nat)
    (i : Nat) : List Gate × Nat :=
  let target := (i + max (num_qubits - 3) 1) % num_qubits
  (acc.1 ++ [Gate.RY (params acc.2) i, Gate.RY (params (acc.2 + 1)) target,
    Gate.CNOT i target], acc.2 + 2)

/-- The general (`else`) branch of `QCNN_Solver.convolution` (lines 82-91),
made standalone so it can be compared with the `num_qubits == 2` base case.
Returns the emitted gates and the returned `i_param`. -/
def convolutionGeneral (num_qubits : Nat) (params : Nat → ℚ) :
    List Gate × Nat :=
  (List.range num_qubits).foldl (convStep num_qubits params) ([], 0)

/-- `QCNN_Solver.convolution` (lines 62-91): branch on `num_qubits == 2`,
otherwise the general loop.  Returns the emitted gates and the number of
parameters consumed (the function's return value). -/
def convolution (num_qubits : Nat) (params : Nat → ℚ) : List Gate × Nat :=
  if num_qubits = 2 then
    ([Gate.RY (params 0) 0, Gate.RY (params 1) 1, Gate.CNOT 0 1], 2)
  else
    convolutionGeneral num_qubits params

/-- `QCNN_Solver.pool` (lines 46-60): `new_size = int(np.ceil(old_size / 2))`,
then `qml.CNOT(wires=(i, old_size - i - 1))` for `i in range(new_size,
old_size)`; returns the emitted gates and `new_size`. -/
def pool (old_size : Nat) : List Gate × Nat :=
  let new_size := ceilHalf old_size
  ((List.range' new_size (old_size - new_size)).map
      (fun i => Gate.CNOT i (old_size - i - 1)),
    new_size)

/-- The `while True` loop of `QCNN_Solver.generate_qcnn_circuit`
(lines 111-117), carrying `num_qubits_utilized` (the first argument),
the parameter array and the running `num_params_utilized` offset:
call `convolution` on the tail slice `params[offset:]`, add its return
value to the offset, pool, and stop when the size reaches 1.  Returns all
gates emitted by the loop and the final `num_params_utilized`.
(For size 0 the Python loop would never terminate; that case is
unreachable from any register and is mapped to the empty trace.) -/
def qcnnLoop : Nat → (Nat → ℚ) → Nat → List Gate × Nat
  | 0, _, offset => ([], offset)
  | Nat.succ m, params, offset =>
    let c := convolution (m + 1) (fun j => params (offset + j))
    let pg := pool (m + 1)
    if h : ceilHalf (m + 1) = 1 then (c.1 ++ pg.1, offset + c.2)
    else
      let rest := qcnnLoop (ceilHalf (m + 1)) params (offset + c.2)
      (c.1 ++ pg.1 ++ rest.1, rest.2)
termination_by n => n
decreasing_by
  exact ceilHalf_lt (m + 1) (by have := ceilHalf_eq_one_iff (m + 1); omega)

/-- Number of iterations of the size trajectory `n, ceil(n/2), …` until it
reaches 1: the common termination measure of the constructor's counting loop
and of the circuit-generation loop. -/
def stepsTo1 (n : Nat) : Nat :=
  if h : 1 < n then stepsTo1 (ceilHalf n) + 1 else 0
termination_by n
decreasing_by exact ceilHalf_lt n h

/-- `np.sign` on the (real-valued) observable expectation, as applied to each
test-circuit output in `QCNN_Solver.run` (line 172) and
`QCNN_Solver.run_batched` (line 249). -/
def npSign (x : ℚ) : ℚ := if x < 0 then -1 else if 0 < x then 1 else 0

/-- The documented label convention of `run`/`run_batched`: every label must
be exactly -1 or +1. -/
def validLabel (l : ℚ) : Prop := l = -1 ∨ l = 1

/-- The prediction loop of `QCNN_Solver.run` (lines 171-174) and
`QCNN_Solver.run_batched` (lines 248-251): each prediction is the sign of
the optimized circuit's expectation on the testing vector. -/
def runPredictions {α : Type} (circuit : α → (Nat → ℚ) → ℚ)
    (params : Nat → ℚ) (testing : List α) : List ℚ :=
  testing.map (fun v => npSign (circuit v params))

/-- `training_vectors[batch_number * batch_lenght : (batch_number + 1) *
batch_lenght]` from `QCNN_Solver.run_batched.cost_function` (lines 229-235):
the clamping Python slice over the training partition, for batch index `k`
and batch length `L`. -/
def batchSlice {α : Type} (xs : List α) (L k : Nat) : List α :=
  (xs.drop (k * L)).take L

/-- One invocation of `run_batched`'s `cost_function` viewed on its closure
state: with `batch_number = k` it restricts the training partition to
`batchSlice xs L k` and leaves `batch_number = k + 1` behind
(`nonlocal batch_number; batch_number = batch_number + 1`). -/
def costStep {α : Type} (xs : List α) (L k : Nat) : List α × Nat :=
  (batchSlice xs L k, k + 1)

/-- `training_period = int(training_ratio * len(labels))` as computed by
`QCNN_Solver.run` (line 149), `QCNN_Solver.run_batched` (line 211) and
`Quantum_Kernel_Classification.run` (line 78); for a nonnegative product,
Python's `int` truncation is the floor. -/
def trainingPeriod {α : Type} (xs : List α) (r : ℚ) : Nat :=
  (Int.floor (r * (xs.length : ℚ))).toNat

/-- The positional train/test split used by both classifiers' `run` methods:
the first `trainingPeriod` samples train, the rest test. -/
def trainTestSplit {α : Type} (xs : List α) (r : ℚ) : List α × List α :=
  (xs.take (trainingPeriod xs r), xs.drop (trainingPeriod xs r))

end QCNN

namespace Kernel

/-- A circuit operation emitted by
`Quantum_Kernel_Classification.get_kernel_embedding`: either
`self.embedding(v)` or `qml.adjoint(self.embedding)(v)`, with the embedding
itself an opaque external collaborator. -/
inductive KernelOp (α : Type) where
  | embed (v : α)
  | adjointEmbed (v : α)
deriving DecidableEq

/-- `Quantum_Kernel_Classification.get_kernel_embedding` (lines 32-49):
apply the embedding of `a`, then the adjoint embedding of `b`, and measure
`qml.probs(wires=range(self.num_qubits))`.  Modelled as the list of emitted
operations paired with the measured wire list. -/
def get_kernel_embedding {α : Type} (num_qubits : Nat) (a b : α) :
    List (KernelOp α) × List Nat :=
  ([KernelOp.embed a, KernelOp.adjointEmbed b], List.range num_qubits)

/-- `qkernel` from `Quantum_Kernel_Classification.run` (lines 75-76):
the kernel matrix `[[self.kernel_circuit(a, b)[0] for b in B] for a in A]`.
The QNode produced by the external execution layer is modelled as an opaque
semantics `sem` mapping the circuit description to its probability vector;
entry `[0]` of that vector is the probability of the all-zero outcome. -/
def qkernel {α : Type} (sem : List (KernelOp α) × List Nat → List ℚ)
    (num_qubits : Nat) (A B : List α) : List (List ℚ) :=
  A.map (fun a => B.map (fun b =>
    (sem (get_kernel_embedding num_qubits a b)).getD 0 0))

end Kernel

namespace QCNN

lemma convFoldl_snd (n : Nat) (p : Nat → ℚ) (l : List Nat) :
    ∀ (gs : List Gate) (ip : Nat),
      ((l.foldl (convStep n p) (gs, ip)).2) = ip + 2 * l.length := by
  induction l with
  | nil => intro gs ip; simp
  | cons a l ih =>
    intro gs ip
    simp only [List.foldl_cons, List.length_cons]
    rw [ih]
    simp [convStep]
    ring

lemma convolutionGeneral_snd (n : Nat) (p : Nat → ℚ) :
    (convolutionGeneral n p).2 = 2 * n := by
  unfold convolutionGeneral
  rw [convFoldl_snd]
  simp

lemma convolution_snd (n : Nat) (p : Nat → ℚ) :
    (convolution n p).2 = if n = 2 then 2 else 2 * n := by
  unfold convolution
  by_cases h : n = 2 <;> simp [h, convolutionGeneral_snd]

lemma paramLoopSum_of_lt (n : Nat) (h : 1 < n) :
    paramLoopSum n = 2 * n + paramLoopSum (ceilHalf n) := by
  rw [paramLoopSum]; simp [h]

lemma paramLoopSum_of_le (n : Nat) (h : n ≤ 1) : paramLoopSum n = 0 := by
  rw [paramLoopSum]; simp [Nat.not_lt.mpr h]

lemma qcnnLoop_snd (n : Nat) :
    2 ≤ n → ∀ (p : Nat → ℚ) (off : Nat),
      (qcnnLoop n p off).2 + 2 = off + paramLoopSum n := by
  induction n using Nat.strong_induction_on with
  | _ n ih =>
    intro hn p off
    obtain ⟨m, rfl⟩ : ∃ m, n = m + 1 := ⟨n - 1, by omega⟩
    rw [qcnnLoop]
    by_cases h1 : ceilHalf (m + 1) = 1
    · have hm : m + 1 = 2 := by
        have := (ceilHalf_eq_one_iff (m + 1)).mp h1
        omega
      simp only [h1, dif_pos]
      rw [convolution_snd]
      rw [hm] at *
      simp [paramLoopSum_of_lt 2 (by omega), paramLoopSum_of_le 1 (by omega),
        ceilHalf]
    · have hm3 : 3 ≤ m + 1 := by
        have h2 : ¬ (m + 1 = 1 ∨ m + 1 = 2) :=
          fun hh => h1 ((ceilHalf_eq_one_iff (m + 1)).mpr hh)
        omega
      have hch2 : 2 ≤ ceilHalf (m + 1) := by
        have h1' := ceilHalf_pos (m + 1) (by omega)
        omega
      simp only [h1, dif_neg, not_false_iff]
      rw [ih (ceilHalf (m + 1)) (ceilHalf_lt (m + 1) (by omega)) hch2 p _]
      rw [convolution_snd]
      have : ¬ (m + 1 = 2) := by omega
      simp only [this, if_false]
      rw [paramLoopSum_of_lt (m + 1) (by omega)]
      omega

/-- C1: for every register size `n ≥ 2` and every parameter array, the
parameter count precomputed by the `QCNN_Solver` constructor equals the total
number of parameters consumed by the convolution steps of one full
circuit-generation loop for the same `n`. -/
theorem qcnn_param_count_matches_generation (n : Nat) (p : Nat → ℚ)
    (h : 2 ≤ n) : numParams n = ((qcnnLoop n p 0).2 : Int) := by
  have := qcnnLoop_snd n h p 0
  unfold numParams
  omega

theorem qcnn_param_count_matches_generation_witness :
    2 ≤ 4 ∧ numParams 4 = ((qcnnLoop 4 (fun _ => 0) 0).2 : Int) :=
  ⟨by omega, qcnn_param_count_matches_generation 4 (fun _ => 0) (by omega)⟩

end QCNN

namespace QCNN

lemma stepsTo1_of_lt (n : Nat) (h : 1 < n) :
    stepsTo1 n = stepsTo1 (ceilHalf n) + 1 := by
  rw [stepsTo1]; simp [h]

lemma stepsTo1_of_le (n : Nat) (h : n ≤ 1) : stepsTo1 n = 0 := by
  rw [stepsTo1]; simp [Nat.not_lt.mpr h]

lemma stepsTo1_eq_clog (n : Nat) : stepsTo1 n = Nat.clog 2 n := by
  induction n using Nat.strong_induction_on with
  | _ n ih =>
    by_cases h : 1 < n
    · rw [stepsTo1_of_lt n h, Nat.clog_of_two_le (by omega) (by omega)]
      have : (n + 2 - 1) / 2 = ceilHalf n := by unfold ceilHalf; omega
      rw [this, ih (ceilHalf n) (ceilHalf_lt n (by omega))]
    · rw [stepsTo1_of_le n (by omega), Nat.clog_of_right_le_one (by omega)]

lemma iterate_ceilHalf_reaches_one (n : Nat) :
    1 ≤ n → ceilHalf^[stepsTo1 n] n = 1 := by
  induction n using Nat.strong_induction_on with
  | _ n ih =>
    intro hn
    by_cases h : 1 < n
    · rw [stepsTo1_of_lt n h, Function.iterate_succ_apply]
      exact ih (ceilHalf n) (ceilHalf_lt n (by omega))
        (ceilHalf_pos n (by omega))
    · have : n = 1 := by omega
      rw [this, stepsTo1_of_le 1 (by omega)]
      rfl

lemma iterate_ceilHalf_gt_one (n : Nat) :
    ∀ k, k < stepsTo1 n → 1 < ceilHalf^[k] n := by
  induction n using Nat.strong_induction_on with
  | _ n ih =>
    intro k hk
    by_cases h : 1 < n
    · match k with
      | 0 => simpa using h
      | Nat.succ j =>
        rw [Function.iterate_succ_apply]
        apply ih (ceilHalf n) (ceilHalf_lt n (by omega))
        rw [stepsTo1_of_lt n h] at hk
        omega
    · rw [stepsTo1_of_le n (by omega)] at hk
      omega

/-- C5: for every `n ≥ 2` the size trajectory obtained by repeatedly
replacing `size` with `ceil(size / 2)` reaches 1 in exactly
`ceil(log2 n)` steps (`Nat.clog 2 n`), and in no fewer: this is the
termination measure of both the constructor loop (`paramLoopSum`) and the
circuit-generation loop (`qcnnLoop`). -/
theorem qcnn_trajectory_reaches_one (n : Nat) (h : 2 ≤ n) :
    stepsTo1 n = Nat.clog 2 n ∧
      ceilHalf^[stepsTo1 n] n = 1 ∧
      ∀ k, k < stepsTo1 n → 1 < ceilHalf^[k] n :=
  ⟨stepsTo1_eq_clog n, iterate_ceilHalf_reaches_one n (by omega),
    iterate_ceilHalf_gt_one n⟩

theorem qcnn_trajectory_reaches_one_witness :
    2 ≤ 8 ∧
      (stepsTo1 8 = Nat.clog 2 8 ∧
        ceilHalf^[stepsTo1 8] 8 = 1 ∧
        ∀ k, k < stepsTo1 8 → 1 < ceilHalf^[k] 8) :=
  ⟨by omega, qcnn_trajectory_reaches_one 8 (by omega)⟩

/-- C9: for `num_qubits ≤ 1` the accumulation loop of the constructor never
runs, the computed parameter count is `-2`, a negative value, and the
construction of the initial parameter vector (`np.random.randn` with a
negative length) fails, so the instance is not well-formed. -/
theorem qcnn_num_params_negative_below_two (n : Nat) (h : n ≤ 1) :
    paramLoopSum n = 0 ∧ numParams n = -2 ∧ numParams n < 0 ∧
      randnLen (numParams n) = none := by
  have h0 : paramLoopSum n = 0 := paramLoopSum_of_le n h
  have h1 : numParams n = -2 := by unfold numParams; omega
  refine ⟨h0, h1, by omega, ?_⟩
  rw [h1]
  rfl

theorem qcnn_num_params_negative_below_two_witness :
    1 ≤ 1 ∧
      (paramLoopSum 1 = 0 ∧ numParams 1 = -2 ∧ numParams 1 < 0 ∧
        randnLen (numParams 1) = none) :=
  ⟨by omega, qcnn_num_params_negative_below_two 1 (by omega)⟩

end QCNN

namespace QCNN

/-- C2 counterexample: at `size == 2` the general-case formula does not
compute the same result as the explicit base case.  At the concrete
parameter array `fun j => j` the general loop emits six gates (its second
iteration adds a rotation on 1, a rotation on 0 and an entangling gate from
1 to 0) and returns 4 consumed parameters, while the base case emits three
gates and returns 2. -/
theorem conv_general_at_two_differs_from_base :
    (convolutionGeneral 2 (fun j => (j : ℚ))).2 = 4 ∧
      (convolution 2 (fun j => (j : ℚ))).2 = 2 ∧
      convolutionGeneral 2 (fun j => (j : ℚ)) ≠
        convolution 2 (fun j => (j : ℚ)) :=
  ⟨rfl, rfl, by decide⟩

/-- C2 amended: at `size == 2` the general-case formula emits the base
case's gate sequence as its first iteration and then a second iteration
(rotation on 1, rotation on 0, entangling gate from 1 to 0), consuming
`2 * size = 4` parameters, whereas the canonical base case emits exactly one
rotation on 0, one rotation on 1 and one entangling gate from 0 to 1,
consuming 2 parameters; the two computations are not equal. -/
theorem conv_general_at_two_characterization (p : Nat → ℚ) :
    convolution 2 p =
        ([Gate.RY (p 0) 0, Gate.RY (p 1) 1, Gate.CNOT 0 1], 2) ∧
      convolutionGeneral 2 p =
        ((convolution 2 p).1 ++
          [Gate.RY (p 2) 1, Gate.RY (p 3) 0, Gate.CNOT 1 0], 4) :=
  ⟨rfl, rfl⟩

/-- C4: for every `old_size ≥ 2` the pooling step returns
`new_size = ceil(old_size / 2)`, emits exactly the entangling gates
`(i, old_size - i - 1)` for `i` in `[new_size, old_size)` and nothing else
(in particular no parametrized rotation, so no parameter is consumed), and
for `old_size = 5` it returns 3 with entangling pairs (3,1) and (4,0). -/
theorem pool_characterization (old : Nat) (h : 2 ≤ old) :
    (pool old).2 = (old + 1) / 2 ∧
      (pool old).1.length = old - (old + 1) / 2 ∧
      (∀ g, g ∈ (pool old).1 ↔
        ∃ i, (old + 1) / 2 ≤ i ∧ i < old ∧ g = Gate.CNOT i (old - i - 1)) ∧
      (∀ g ∈ (pool old).1, ∀ q w, g ≠ Gate.RY q w) ∧
      pool 5 = ([Gate.CNOT 3 1, Gate.CNOT 4 0], 3) := by
  refine ⟨rfl, by simp [pool, ceilHalf], ?_, ?_, by decide⟩
  · intro g
    simp only [pool, List.mem_map, List.mem_range', ceilHalf, one_mul]
    constructor
    · rintro ⟨i, ⟨j, hj, rfl⟩, rfl⟩
      exact ⟨(old + 1) / 2 + j, by omega, by omega, rfl⟩
    · rintro ⟨i, h1, h2, rfl⟩
      exact ⟨i, ⟨i - (old + 1) / 2, by omega, by omega⟩, rfl⟩
  · intro g hg q w
    simp only [pool, List.mem_map] at hg
    rcases hg with ⟨i, _, rfl⟩
    intro hcontra
    exact Gate.noConfusion hcontra

theorem pool_characterization_witness :
    2 ≤ 5 ∧
      ((pool 5).2 = (5 + 1) / 2 ∧
        (pool 5).1.length = 5 - (5 + 1) / 2 ∧
        (∀ g, g ∈ (pool 5).1 ↔
          ∃ i, (5 + 1) / 2 ≤ i ∧ i < 5 ∧ g = Gate.CNOT i (5 - i - 1)) ∧
        (∀ g ∈ (pool 5).1, ∀ q w, g ≠ Gate.RY q w) ∧
        pool 5 = ([Gate.CNOT 3 1, Gate.CNOT 4 0], 3)) :=
  ⟨by omega, pool_characterization 5 (by omega)⟩

end QCNN

namespace QCNN

lemma batchSlice_getElem? {α : Type} (xs : List α) (L k j : Nat)
    (hj : j < L) : (batchSlice xs L k)[j]? = xs[k * L + j]? := by
  rw [batchSlice, List.getElem?_take, if_pos hj, List.getElem?_drop]

lemma batches_flatten {α : Type} (xs : List α) (L : Nat) (N : Nat) :
    ((List.range N).map (fun k => batchSlice xs L k)).flatten
      = xs.take (N * L) := by
  induction N with
  | zero => simp
  | succ n ih =>
    rw [List.range_succ, List.map_append, List.flatten_append, ih]
    simp only [List.map_cons, List.map_nil, List.flatten_cons,
      List.flatten_nil, List.append_nil]
    rw [batchSlice, ← List.take_add]
    congr 1
    ring

lemma mem_batchSlice_range (tc L k i : Nat) :
    i ∈ batchSlice (List.range tc) L k →
      k * L ≤ i ∧ i < k * L + L ∧ i < tc := by
  intro hi
  rw [List.mem_iff_getElem?] at hi
  rcases hi with ⟨j, hj⟩
  have hjL : j < L := by
    by_contra hc
    rw [batchSlice, List.getElem?_take, if_neg hc] at hj
    exact Option.noConfusion hj
  rw [batchSlice_getElem? _ _ _ _ hjL] at hj
  by_cases hlt : k * L + j < tc
  · rw [List.getElem?_range hlt] at hj
    have : k * L + j = i := by injection hj
    omega
  · rw [List.getElem?_eq_none (by simp; omega)] at hj
    exact Option.noConfusion hj

lemma batch_bound {tc N L k : Nat} (hN : 0 < N) (hL : L = tc / N)
    (hk : k < N) : k * L + L ≤ N * L ∧ N * L ≤ tc := by
  constructor
  · have h1 : (k + 1) * L ≤ N * L := Nat.mul_le_mul_right L (by omega)
    rw [Nat.add_mul, one_mul] at h1
    omega
  · rw [hL, Nat.mul_comm]
    exact Nat.div_mul_le_self tc N

/-- C3: in `run_batched` with `num_batches = N` and
`L = floor(training_count / N)`, the cost function's `k`-th invocation uses
exactly the contiguous slice `[k*L, (k+1)*L)` of the training partition and
advances the closed-over batch index by one; the `N` batches each have
length `L`, their concatenation is exactly the first `N*L` training samples
(so each of those samples lies in exactly one contiguous batch), and no
remainder sample (position `≥ N*L`) occurs in any of the `N` batches. -/
theorem run_batched_batches_partition {α : Type} (xs : List α) (N L : Nat)
    (hN : 0 < N) (hL : L = xs.length / N) :
    (∀ k, costStep xs L k = (batchSlice xs L k, k + 1)) ∧
      (∀ k j, k < N → j < L →
        (batchSlice xs L k)[j]? = xs[k * L + j]?) ∧
      (∀ k, k < N → (batchSlice xs L k).length = L) ∧
      ((List.range N).map (fun k => batchSlice xs L k)).flatten
        = xs.take (N * L) ∧
      (∀ k i, k < N → N * L ≤ i →
        i ∉ batchSlice (List.range xs.length) L k) := by
  refine ⟨fun k => rfl, fun k j _ hj => batchSlice_getElem? xs L k j hj,
    ?_, batches_flatten xs L N, ?_⟩
  · intro k hk
    have hb := batch_bound hN hL hk
    simp only [batchSlice, List.length_take, List.length_drop]
    omega
  · intro k i hk hi hmem
    have hb := batch_bound hN hL hk
    have := mem_batchSlice_range xs.length L k i hmem
    omega

theorem run_batched_batches_partition_witness :
    (0 < 3 ∧ 3 = (List.range 10).length / 3) ∧
      ((∀ k, costStep (List.range 10) 3 k
          = (batchSlice (List.range 10) 3 k, k + 1)) ∧
        (∀ k j, k < 3 → j < 3 →
          (batchSlice (List.range 10) 3 k)[j]? = (List.range 10)[k * 3 + j]?) ∧
        (∀ k, k < 3 → (batchSlice (List.range 10) 3 k).length = 3) ∧
        ((List.range 3).map (fun k => batchSlice (List.range 10) 3 k)).flatten
          = (List.range 10).take (3 * 3) ∧
        (∀ k i, k < 3 → 3 * 3 ≤ i →
          i ∉ batchSlice (List.range (List.range 10).length) 3 k)) :=
  ⟨⟨by omega, by simp⟩,
    run_batched_batches_partition (List.range 10) 3 3 (by omega) (by simp)⟩

end QCNN

namespace QCNN

lemma npSign_eq_zero_iff (x : ℚ) : npSign x = 0 ↔ x = 0 := by
  unfold npSign
  split_ifs with h1 h2
  · constructor
    · intro hc; norm_num at hc
    · intro hc; rw [hc] at h1; norm_num at h1
  · constructor
    · intro hc; norm_num at hc
    · intro hc; rw [hc] at h2; norm_num at h2
  · have hx : x = 0 := le_antisymm (not_lt.mp h2) (not_lt.mp h1)
    simp [hx]

/-- C7: in `run` and `run_batched` every prediction is exactly the sign of
the circuit's continuous observable expectation at the optimized parameters;
the sign is 0 exactly when the observable value is exactly 0, and 0 is not a
valid label under the -1/+1 label convention. -/
theorem qcnn_prediction_is_sign {α : Type} (circuit : α → (Nat → ℚ) → ℚ)
    (params : Nat → ℚ) (testing : List α) :
    (∀ i : Nat, (runPredictions circuit params testing)[i]?
        = Option.map (fun v => npSign (circuit v params)) testing[i]?) ∧
      (∀ x : ℚ, npSign x = 0 ↔ x = 0) ∧
      ¬ validLabel 0 := by
  refine ⟨?_, npSign_eq_zero_iff, ?_⟩
  · intro i
    simp [runPredictions, List.getElem?_map]
  · unfold validLabel
    norm_num

lemma trainingPeriod_le {α : Type} (xs : List α) (r : ℚ) (h1 : r < 1) :
    trainingPeriod xs r ≤ xs.length := by
  unfold trainingPeriod
  rw [Int.toNat_le]
  calc Int.floor (r * (xs.length : ℚ)) ≤ Int.floor ((xs.length : ℚ)) := by
        apply Int.floor_le_floor
        have hn : (0 : ℚ) ≤ (xs.length : ℚ) := by positivity
        nlinarith
    _ = (xs.length : Int) := Int.floor_natCast xs.length

/-- C8: for `0 < r < 1` both classifiers' `run` methods split the dataset
positionally: the training partition is exactly the first
`floor(r * N)` samples and the test partition exactly the remaining ones,
the two partitions concatenate back to the dataset (disjoint positions,
exhaustive) and each partition preserves the dataset's order and positions
without reordering. -/
theorem positional_train_test_split {α : Type} (xs : List α) (r : ℚ)
    (h0 : 0 < r) (h1 : r < 1) :
    (trainTestSplit xs r).1 = xs.take (trainingPeriod xs r) ∧
      (trainTestSplit xs r).2 = xs.drop (trainingPeriod xs r) ∧
      (trainTestSplit xs r).1 ++ (trainTestSplit xs r).2 = xs ∧
      trainingPeriod xs r ≤ xs.length ∧
      (trainTestSplit xs r).1.length = trainingPeriod xs r ∧
      (trainTestSplit xs r).2.length = xs.length - trainingPeriod xs r ∧
      (∀ i, i < trainingPeriod xs r →
        ((trainTestSplit xs r).1)[i]? = xs[i]?) ∧
      (∀ i, ((trainTestSplit xs r).2)[i]? = xs[trainingPeriod xs r + i]?) := by
  have hle := trainingPeriod_le xs r h1
  refine ⟨rfl, rfl, List.take_append_drop _ xs, hle, ?_, ?_, ?_, ?_⟩
  · simp [trainTestSplit]
    omega
  · simp [trainTestSplit]
  · intro i hi
    simp only [trainTestSplit, List.getElem?_take, if_pos hi]
  · intro i
    simp only [trainTestSplit, List.getElem?_drop]

theorem positional_train_test_split_witness :
    ((0 : ℚ) < 4/5 ∧ (4/5 : ℚ) < 1) ∧
      ((trainTestSplit (List.range 10) (4/5)).1
          = (List.range 10).take (trainingPeriod (List.range 10) (4/5)) ∧
        (trainTestSplit (List.range 10) (4/5)).2
          = (List.range 10).drop (trainingPeriod (List.range 10) (4/5)) ∧
        (trainTestSplit (List.range 10) (4/5)).1 ++
            (trainTestSplit (List.range 10) (4/5)).2 = List.range 10 ∧
        trainingPeriod (List.range 10) (4/5) ≤ (List.range 10).length ∧
        (trainTestSplit (List.range 10) (4/5)).1.length
          = trainingPeriod (List.range 10) (4/5) ∧
        (trainTestSplit (List.range 10) (4/5)).2.length
          = (List.range 10).length - trainingPeriod (List.range 10) (4/5) ∧
        (∀ i, i < trainingPeriod (List.range 10) (4/5) →
          ((trainTestSplit (List.range 10) (4/5)).1)[i]?
            = (List.range 10)[i]?) ∧
        (∀ i, ((trainTestSplit (List.range 10) (4/5)).2)[i]?
          = (List.range 10)[trainingPeriod (List.range 10) (4/5) + i]?)) :=
  ⟨⟨by norm_num, by norm_num⟩,
    positional_train_test_split (List.range 10) (4/5)
      (by norm_num) (by norm_num)⟩

/-- C10 counterexample: with a training partition of 10 samples and
`num_batches = 3` the batch length is `L = floor(10/3) = 3`, and the first
extra invocation of the cost function (batch index `k = 3`, beyond the 3
batches) receives the slice `[9, 12)` of the partition, which is clamped to
the nonempty remainder `[sample 9]`, not the empty slice the claim
predicts. -/
theorem run_batched_extra_invocation_nonempty :
    (10 : Nat) / 3 = 3 ∧
      batchSlice (List.range 10) (10 / 3) 3 = [9] ∧
      batchSlice (List.range 10) (10 / 3) 3 ≠ [] :=
  ⟨by decide, by decide, by decide⟩

/-- C10 amended: extra invocations of `run_batched`'s cost function never
raise an out-of-range error because Python slicing clamps: the batch of
index `k` is empty exactly when `L = 0` or `k*L` reaches the training count
(so an extra batch whose start still lies inside the partition receives the
leftover remainder samples instead of being empty), its length is
`min L (training_count - k*L)`, a zero batch length makes every batch empty,
and `num_batches` exceeding the training count forces `L = 0`. -/
theorem batch_slice_clamping {α : Type} (xs : List α) (L k : Nat) :
    (batchSlice xs L k = [] ↔ L = 0 ∨ xs.length ≤ k * L) ∧
      (batchSlice xs L k).length = min L (xs.length - k * L) ∧
      (L = 0 → batchSlice xs L k = []) ∧
      (∀ N, xs.length < N → xs.length / N = 0) := by
  refine ⟨?_, by simp [batchSlice], ?_, fun N hN => Nat.div_eq_of_lt hN⟩
  · rw [batchSlice, List.take_eq_nil_iff, List.drop_eq_nil_iff]
  · intro h
    simp [batchSlice, h]

end QCNN

namespace Kernel

/-- C6: every kernel-matrix entry produced by `qkernel` at row `i`
(vector `a` from the first set) and column `j` (vector `b` from the second
set) is exactly the scalar obtained by emitting `embedding(a)` followed by
the adjoint of `embedding(b)`, measuring the probabilities of all basis
outcomes over all `num_qubits` wires, and selecting entry 0 of the
probability vector (the all-zero outcome). -/
theorem kernel_matrix_entry {α : Type}
    (sem : List (KernelOp α) × List Nat → List ℚ) (nq : Nat)
    (A B : List α) (i j : Nat) (hi : i < A.length) (hj : j < B.length)
    (hi2 : i < (qkernel sem nq A B).length)
    (hj2 : j < ((qkernel sem nq A B).get ⟨i, hi2⟩).length) :
    ((qkernel sem nq A B).get ⟨i, hi2⟩).get ⟨j, hj2⟩
        = (sem (get_kernel_embedding nq (A.get ⟨i, hi⟩)
            (B.get ⟨j, hj⟩))).getD 0 0 ∧
      get_kernel_embedding nq (A.get ⟨i, hi⟩) (B.get ⟨j, hj⟩)
        = ([KernelOp.embed (A.get ⟨i, hi⟩),
            KernelOp.adjointEmbed (B.get ⟨j, hj⟩)], List.range nq) := by
  constructor
  · simp [qkernel, List.get_eq_getElem, List.getElem_map]
  · rfl

theorem kernel_matrix_entry_witness :
    (0 < [(0 : ℚ)].length ∧ 0 < [(1 : ℚ)].length ∧
        0 < (qkernel (fun _ => [(1 : ℚ)]) 1 [(0 : ℚ)] [(1 : ℚ)]).length) ∧
      (((qkernel (fun _ => [(1 : ℚ)]) 1 [(0 : ℚ)] [(1 : ℚ)]).get
            ⟨0, by simp [qkernel]⟩).get ⟨0, by simp [qkernel]⟩
          = ((fun _ => [(1 : ℚ)]) (get_kernel_embedding 1
              ([(0 : ℚ)].get ⟨0, by simp⟩)
              ([(1 : ℚ)].get ⟨0, by simp⟩))).getD 0 0 ∧
        get_kernel_embedding 1 ([(0 : ℚ)].get ⟨0, by simp⟩)
            ([(1 : ℚ)].get ⟨0, by simp⟩)
          = ([KernelOp.embed ([(0 : ℚ)].get ⟨0, by simp⟩),
              KernelOp.adjointEmbed ([(1 : ℚ)].get ⟨0, by simp⟩)],
             List.range 1)) :=
  ⟨⟨by simp, by simp, by simp [qkernel]⟩,
    kernel_matrix_entry (fun _ => [(1 : ℚ)]) 1 [(0 : ℚ)] [(1 : ℚ)] 0 0
      (by simp) (by simp) (by simp [qkernel]) (by simp [qkernel])⟩

end Kernel

namespace QCNN

theorem qcnn_prediction_is_sign_witness :
    (∀ i : Nat,
        (runPredictions (fun (_ : ℚ) (_ : Nat → ℚ) => (0 : ℚ)) (fun _ => 0)
            [(0 : ℚ)])[i]?
          = Option.map (fun v => npSign ((fun (_ : ℚ) (_ : Nat → ℚ) => (0 : ℚ))
              v (fun _ => 0))) [(0 : ℚ)][i]?) ∧
      (∀ x : ℚ, npSign x = 0 ↔ x = 0) ∧
      ¬ validLabel 0 :=
  qcnn_prediction_is_sign (fun (_ : ℚ) (_ : Nat → ℚ) => (0 : ℚ))
    (fun _ => 0) [(0 : ℚ)]

theorem batch_slice_clamping_witness :
    (batchSlice (List.range 5) 2 3 = [] ↔ 2 = 0 ∨ (List.range 5).length ≤ 3 * 2) ∧
      (batchSlice (List.range 5) 2 3).length
        = min 2 ((List.range 5).length - 3 * 2) ∧
      (2 = 0 → batchSlice (List.range 5) 2 3 = []) ∧
      (∀ N, (List.range 5).length < N → (List.range 5).length / N = 0) :=
  batch_slice_clamping (List.range 5) 2 3

end QCNN
